import Mathlib

/-!
Shallow embedding of the `tlv` Go package (gokyle/tlv, src/tlv.go).

A TLV record is a tag (Go `int`, written on the wire as a little-endian
`int32`), a length and a value.  Streams are modelled as lists of bytes
(`List ℕ`, each byte `< 256` in a real stream); readers are deterministic
in the style of `bytes.Buffer`: a read returns `min(len(p), available)`
bytes, `io.EOF` exactly when nothing is available and `len(p) > 0`.
`binary.Read` of an `int32` goes through `io.ReadFull`: it yields `io.EOF`
when zero bytes are available and `io.ErrUnexpectedEOF` on a partial read.
`make([]byte, n)` with negative `n` is a runtime panic, modelled as the
distinguished outcome `panicked`.
-/

namespace Tlv

/-- The `record` struct of the source: tag, length (Go `int`, modelled as
unbounded `ℤ`) and value bytes. -/
structure Record where
  tag : ℤ
  length : ℤ
  value : List ℕ
deriving DecidableEq, Repr

/-- The errors the source can surface: `io.EOF` and `io.ErrUnexpectedEOF`
(produced by `binary.Read` / `io.ReadFull`), and the package's own
`ErrTLVRead`, `ErrTLVWrite` and `ErrTagNotFound`. -/
inductive GoErr where
  | eof
  | unexpectedEOF
  | tlvRead
  | tlvWrite
  | tagNotFound
deriving DecidableEq, Repr

/-- `Equals` of the source, on optional records (`none` plays Go's `nil`):
nil/nil is true, nil/non-nil false, otherwise tag, length and value must
all agree. -/
def Equals : Option Record → Option Record → Bool
  | none, none => true
  | none, some _ => false
  | some _, none => false
  | some t1, some t2 =>
    if t1.tag ≠ t2.tag then false
    else if t1.length ≠ t2.length then false
    else if t1.value ≠ t2.value then false
    else true

/-- `newTLV` of the source: the length field is set to the byte count of
the value, and the value is copied into fresh storage (value semantics
here). -/
def newTLV (tag : ℤ) (value : List ℕ) : Record :=
  { tag := tag, length := (value.length : ℤ), value := value }

/-- The four little-endian bytes `binary.Write` emits for `int32(t)`:
the low 32 bits of `t`. -/
def encodeInt32LE (t : ℤ) : List ℕ :=
  let u := (t % 4294967296).toNat
  [u % 256, u / 256 % 256, u / 65536 % 256, u / 16777216 % 256]

/-- The signed 32-bit integer `binary.Read` decodes from four
little-endian bytes, sign-extended to Go `int`. -/
def decodeInt32LE (b0 b1 b2 b3 : ℕ) : ℤ :=
  let u := b0 + 256 * b1 + 65536 * b2 + 16777216 * b3
  if u < 2147483648 then (u : ℤ) else (u : ℤ) - 4294967296

/-- Reduction of an integer into the signed 32-bit range, as the
composite of Go's `int32(·)` truncation and sign-extension back to `int`. -/
def toInt32 (t : ℤ) : ℤ :=
  (t + 2147483648) % 4294967296 - 2147483648

/-- One `binary.Read(r, binary.LittleEndian, &n)` for an `int32`:
`io.ReadFull` semantics — `io.EOF` on an empty stream,
`io.ErrUnexpectedEOF` when fewer than four bytes remain. -/
def readInt32 : List ℕ → Except GoErr (ℤ × List ℕ)
  | b0 :: b1 :: b2 :: b3 :: rest => .ok (decodeInt32LE b0 b1 b2 b3, rest)
  | [] => .error .eof
  | _ => .error .unexpectedEOF

/-- Outcome of `readRecord`: a record plus the unconsumed stream, an
error, or a runtime panic (from `make([]byte, n)` with negative `n`). -/
inductive DecodeResult where
  | ok (rec : Record) (rest : List ℕ)
  | err (e : GoErr)
  | panicked
deriving DecidableEq, Repr

/-- `readRecord` of the source: two `binary.Read`s for tag and length,
then `make([]byte, length)` (a panic when `length < 0`) and a single
`r.Read` into the value buffer.  That read returns
`min(length, available)` bytes, with `io.EOF` exactly when the stream is
empty and `length > 0`; a short-but-nonzero read trips the
`l != tlv.Length()` check and yields `ErrTLVWrite`. -/
def readRecord (s : List ℕ) : DecodeResult :=
  match readInt32 s with
  | .error e => .err e
  | .ok (tg, s1) =>
    match readInt32 s1 with
    | .error e => .err e
    | .ok (ln, s2) =>
      if ln < 0 then .panicked
      else if ln.toNat = 0 then .ok { tag := tg, length := ln, value := [] } s2
      else if s2.length = 0 then .err .eof
      else if s2.length < ln.toNat then .err .tlvWrite
      else .ok { tag := tg, length := ln, value := s2.take ln.toNat } (s2.drop ln.toNat)

/-- `writeRecord` of the source against a perfect sink: the bytes put on
the wire (tag and length truncated to `int32`, then the raw value), and
the error of the final `n != tlv.Length()` check, which fires exactly
when the record's length field disagrees with its value's byte count. -/
def writeRecord (tlv : Record) : List ℕ × Option GoErr :=
  let out := encodeInt32LE tlv.tag ++ encodeInt32LE tlv.length ++ tlv.value
  if (tlv.value.length : ℤ) = tlv.length then (out, none) else (out, some .tlvWrite)

/-- `TLVList` of the source, with the doubly-linked list modelled as the
sequence of its records in insertion order. -/
abbrev TLVList := List Record

/-- `TLVList.Get`: scan from the front, return the first record whose tag
matches, `ErrTagNotFound` when none does. -/
def TLVList.Get : TLVList → ℤ → Except GoErr Record
  | [], _ => .error .tagNotFound
  | r :: rest, tag => if r.tag = tag then .ok r else TLVList.Get rest tag

/-- One pass of the inner loop of `TLVList.Remove`: remove the first
record whose tag matches, `none` when no record matches. -/
def removeOnce (tag : ℤ) : TLVList → Option TLVList
  | [] => none
  | r :: rest =>
    if r.tag = tag then some rest
    else (removeOnce tag rest).map (fun l => r :: l)

/-- A successful inner pass removes exactly one record. -/
theorem removeOnce_length {tag : ℤ} : ∀ {l l' : TLVList},
    removeOnce tag l = some l' → l'.length + 1 = l.length := by
  intro l
  induction l with
  | nil => intro l' h; simp [removeOnce] at h
  | cons r rest ih =>
    intro l' h
    by_cases hr : r.tag = tag
    · simp [removeOnce, hr] at h
      subst h; rfl
    · simp [removeOnce, hr] at h
      obtain ⟨m, hm, hl'⟩ := h
      subst hl'
      simp [ih hm]

/-- `TLVList.Remove` of the source: repeatedly scan from the front and
remove the first matching record until a full scan removes nothing;
return the surviving list and the count removed. -/
def TLVList.Remove (recs : TLVList) (tag : ℤ) : TLVList × ℕ :=
  match h : removeOnce tag recs with
  | none => (recs, 0)
  | some l' =>
    let p := TLVList.Remove l' tag
    (p.1, p.2 + 1)
termination_by recs.length
decreasing_by
  have := removeOnce_length h
  omega

/-- `TLVList.Write` of the source against a perfect sink: encode each
record in insertion order, stopping at the first error. -/
def TLVList.Write : TLVList → List ℕ × Option GoErr
  | [] => ([], none)
  | r :: rest =>
    match writeRecord r with
    | (bs, some e) => (bs, some e)
    | (bs, none) =>
      let p := TLVList.Write rest
      (bs ++ p.1, p.2)

/-- Outcome of the package-level `Read`: the list built so far together
with `nil` or a non-EOF error (Go returns both named results), or a
propagated panic. -/
inductive ReadAllResult where
  | ok (recs : TLVList)
  | err (recs : TLVList) (e : GoErr)
  | panicked
deriving DecidableEq, Repr

/-- A successful `readRecord` consumes the 8 header bytes. -/
theorem readInt32_ok_length {s rest : List ℕ} {t : ℤ}
    (h : readInt32 s = .ok (t, rest)) : rest.length + 4 = s.length := by
  match s with
  | [] => simp [readInt32] at h
  | [a] => simp [readInt32] at h
  | [a, b] => simp [readInt32] at h
  | [a, b, c] => simp [readInt32] at h
  | a :: b :: c :: d :: r =>
    simp [readInt32] at h
    obtain ⟨-, h2⟩ := h
    subst h2
    simp

/-- A successful `readRecord` consumes at least the 8 header bytes, so
the unconsumed stream is strictly shorter. -/
theorem readRecord_ok_rest_length {s rest : List ℕ} {r : Record}
    (h : readRecord s = .ok r rest) : rest.length < s.length := by
  unfold readRecord at h
  cases h1 : readInt32 s with
  | error e => rw [h1] at h; simp at h
  | ok p =>
    obtain ⟨tg, s1⟩ := p
    rw [h1] at h
    dsimp only at h
    cases h2 : readInt32 s1 with
    | error e => rw [h2] at h; simp at h
    | ok q =>
      obtain ⟨ln, s2⟩ := q
      rw [h2] at h
      dsimp only at h
      have l1 := readInt32_ok_length h1
      have l2 := readInt32_ok_length h2
      split_ifs at h with hneg hz hempty hshort <;> simp at h
      · obtain ⟨-, hrest⟩ := h
        subst hrest
        omega
      · obtain ⟨-, hrest⟩ := h
        subst hrest
        simp only [List.length_drop]
        omega

/-- The package-level `Read` of the source: loop `readRecord`, pushing
each record; on any error stop, and turn `io.EOF` alone into a clean
(error-free) return of the list built so far. -/
def Read (s : List ℕ) : ReadAllResult :=
  match h : readRecord s with
  | .ok r rest =>
    match Read rest with
    | .ok recs => .ok (r :: recs)
    | .err recs e => .err (r :: recs) e
    | .panicked => .panicked
  | .err .eof => .ok []
  | .err e => .err [] e
  | .panicked => .panicked
termination_by s.length
decreasing_by
  exact readRecord_ok_rest_length h

/-- The part of the stream the loop of `Read` is looking at when its last
`readRecord` call fails (ghost function used to state where the loop
stops). -/
def leftover (s : List ℕ) : List ℕ :=
  match h : readRecord s with
  | .ok _ rest => leftover rest
  | .err _ => s
  | .panicked => s
termination_by s.length
decreasing_by
  exact readRecord_ok_rest_length h

/-- The length field of a stream that starts with a full 8-byte header. -/
def headerLen : List ℕ → Option ℤ
  | _ :: _ :: _ :: _ :: c0 :: c1 :: c2 :: c3 :: _ => some (decodeInt32LE c0 c1 c2 c3)
  | _ => none

/-- A record as the constructor produces it: the length field caches the
value's byte count, and tag and length lie in the signed 32-bit range
(the spec's data model, §3). -/
def WfRec (r : Record) : Prop :=
  -2147483648 ≤ r.tag ∧ r.tag < 2147483648 ∧
    r.length = (r.value.length : ℤ) ∧ (r.value.length : ℤ) < 2147483648

/-! ### Arithmetic of the 32-bit little-endian header fields -/

theorem toInt32_of_range {t : ℤ} (h1 : -2147483648 ≤ t) (h2 : t < 2147483648) :
    toInt32 t = t := by
  unfold toInt32
  omega

theorem toInt32_range (t : ℤ) :
    -2147483648 ≤ toInt32 t ∧ toInt32 t < 2147483648 := by
  unfold toInt32
  omega

/-- Decoding the four bytes written for `int32(t)` yields `t` reduced
into the signed 32-bit range. -/
theorem readInt32_encode (t : ℤ) (rest : List ℕ) :
    readInt32 (encodeInt32LE t ++ rest) = Except.ok (toInt32 t, rest) := by
  have h0 : 0 ≤ t % 4294967296 := Int.emod_nonneg t (by norm_num)
  have h1 : t % 4294967296 < 4294967296 := Int.emod_lt_of_pos t (by norm_num)
  simp only [encodeInt32LE, readInt32, List.cons_append, List.nil_append,
    decodeInt32LE, toInt32, Except.ok.injEq, Prod.mk.injEq, and_true]
  split <;> omega

/-- Decoding a stream that starts with the encoding of a record whose
length field matches its value (and fits in 32 bits) succeeds, yields the
record with its tag reduced into 32 bits, and consumes exactly the
record's bytes. -/
theorem readRecord_encode (tag ln : ℤ) (v rest : List ℕ)
    (hv : (v.length : ℤ) = ln) (hln : ln < 2147483648) :
    readRecord (encodeInt32LE tag ++ (encodeInt32LE ln ++ (v ++ rest))) =
      DecodeResult.ok { tag := toInt32 tag, length := ln, value := v } rest := by
  have h0 : 0 ≤ ln := by omega
  unfold readRecord
  rw [readInt32_encode]
  dsimp only
  rw [readInt32_encode, toInt32_of_range (by omega) hln]
  dsimp only
  have hnotneg : ¬ ln < 0 := by omega
  by_cases hz : v = []
  · subst hz
    have hln0 : ln = 0 := by simpa using hv.symm
    subst hln0
    simp
  · have hpos : 0 < v.length := List.length_pos.mpr hz
    have htn : ln.toNat = v.length := by omega
    have h1 : ¬ v.length = 0 := by omega
    have h2 : ¬ (v ++ rest).length = 0 := by
      rw [List.length_append]; omega
    have h3 : ¬ (v ++ rest).length < v.length := by
      rw [List.length_append]; omega
    simp only [htn, hnotneg, h1, h2, h3, if_false]
    rw [List.take_left v rest, List.drop_left v rest]

/-! ### Unfolding equations for the recursive loops -/

theorem Read_ok {s rest : List ℕ} {r : Record} (h : readRecord s = .ok r rest) :
    Read s = (match Read rest with
      | .ok recs => .ok (r :: recs)
      | .err recs e => .err (r :: recs) e
      | .panicked => .panicked) := by
  rw [Read.eq_def]
  split <;> simp_all

theorem Read_eof {s : List ℕ} (h : readRecord s = .err .eof) : Read s = .ok [] := by
  rw [Read.eq_def]
  split <;> simp_all

theorem Read_err {s : List ℕ} {e : GoErr} (h : readRecord s = .err e)
    (he : e ≠ .eof) : Read s = .err [] e := by
  rw [Read.eq_def]
  split <;> simp_all

theorem Read_panicked {s : List ℕ} (h : readRecord s = .panicked) :
    Read s = .panicked := by
  rw [Read.eq_def]
  split <;> simp_all

theorem leftover_ok {s rest : List ℕ} {r : Record} (h : readRecord s = .ok r rest) :
    leftover s = leftover rest := by
  rw [leftover.eq_def]
  split <;> simp_all

theorem leftover_err {s : List ℕ} {e : GoErr} (h : readRecord s = .err e) :
    leftover s = s := by
  rw [leftover.eq_def]
  split <;> simp_all

theorem leftover_panicked {s : List ℕ} (h : readRecord s = .panicked) :
    leftover s = s := by
  rw [leftover.eq_def]
  split <;> simp_all

theorem Remove_none {recs : TLVList} {tag : ℤ} (h : removeOnce tag recs = none) :
    TLVList.Remove recs tag = (recs, 0) := by
  rw [TLVList.Remove.eq_def]
  split <;> simp_all

theorem Remove_some {recs l' : TLVList} {tag : ℤ} (h : removeOnce tag recs = some l') :
    TLVList.Remove recs tag =
      ((TLVList.Remove l' tag).1, (TLVList.Remove l' tag).2 + 1) := by
  rw [TLVList.Remove.eq_def]
  split <;> simp_all

/-! ### The claims -/

/-- C1: for every record built by the constructor with a tag in the
signed 32-bit range and a value of fewer than `2^31` bytes (the empty
value included), decoding the bytes written for it consumes the whole
stream and yields a record `Equals`-equal to the original. -/
theorem c1_record_roundtrip (tag : ℤ) (value : List ℕ)
    (h1 : -2147483648 ≤ tag) (h2 : tag < 2147483648)
    (h3 : (value.length : ℤ) < 2147483648) :
    ∃ rec : Record,
      readRecord (writeRecord (newTLV tag value)).1 = DecodeResult.ok rec [] ∧
        Equals (some rec) (some (newTLV tag value)) = true := by
  refine ⟨newTLV tag value, ?_, by simp [Equals]⟩
  have hw : (writeRecord (newTLV tag value)).1 =
      encodeInt32LE tag ++ (encodeInt32LE ((value.length : ℕ) : ℤ) ++ (value ++ [])) := by
    simp [writeRecord, newTLV]
  rw [hw, readRecord_encode tag _ value [] rfl h3, toInt32_of_range h1 h2]
  rfl

/-- Witness for C1 at tag 7 and value bytes 0, 255. -/
theorem c1_record_roundtrip_witness :
    ∃ rec : Record,
      readRecord (writeRecord (newTLV 7 [0, 255])).1 = DecodeResult.ok rec [] ∧
        Equals (some rec) (some (newTLV 7 [0, 255])) = true :=
  c1_record_roundtrip 7 [0, 255] (by norm_num) (by norm_num) (by norm_num)

/-- C5 counterexample: a stream whose header announces five value bytes
but ends right after the header makes `readRecord` fail with `io.EOF`
(the single `r.Read` into the fresh buffer returns `(0, io.EOF)`), not
with `ErrTLVWrite`, although zero value bytes differ from the announced
length. -/
theorem c5_counterexample :
    readRecord [0, 0, 0, 0, 5, 0, 0, 0] = DecodeResult.err GoErr.eof ∧
      GoErr.eof ≠ GoErr.tlvWrite := by
  exact ⟨by decide, by decide⟩

/-- C5 amended: a short value read is always an explicit error from
`readRecord`, never an accepted truncated record: `ErrTLVWrite` when at
least one value byte was available, `io.EOF` when none was. -/
theorem c5_amended_short_value (tag ln : ℤ) (v : List ℕ)
    (hpos : 0 < ln) (hln : ln < 2147483648) (hshort : (v.length : ℤ) < ln) :
    readRecord (encodeInt32LE tag ++ (encodeInt32LE ln ++ v)) =
      (if v = [] then DecodeResult.err GoErr.eof
       else DecodeResult.err GoErr.tlvWrite) := by
  unfold readRecord
  rw [readInt32_encode]
  dsimp only
  rw [readInt32_encode, toInt32_of_range (by omega) hln]
  dsimp only
  have hnotneg : ¬ ln < 0 := by omega
  have hnz : ¬ ln.toNat = 0 := by omega
  by_cases hv : v = []
  · subst hv
    simp [hnotneg, hnz]
  · have hlen : ¬ v.length = 0 := fun hc => hv (List.length_eq_zero.mp hc)
    have hsh : v.length < ln.toNat := by omega
    simp [hnotneg, hnz, hlen, hsh, hv]

/-- Witness for C5's amended claim: two value bytes available of five
announced gives `ErrTLVWrite`. -/
theorem c5_amended_witness :
    readRecord (encodeInt32LE 0 ++ (encodeInt32LE 5 ++ [1, 2])) =
      DecodeResult.err GoErr.tlvWrite := by
  simpa using c5_amended_short_value 0 5 [1, 2] (by norm_num) (by norm_num) (by norm_num)

/-- C8: the constructor caches the value's byte count in the length
field and keeps its own copy of the value, and every record `readRecord`
returns successfully satisfies the same `length == len(value)`
invariant. -/
theorem c8_length_invariant :
    (∀ (tag : ℤ) (value : List ℕ),
      (newTLV tag value).length = ((newTLV tag value).value.length : ℤ) ∧
        (newTLV tag value).value = value) ∧
    (∀ (s rest : List ℕ) (r : Record), readRecord s = DecodeResult.ok r rest →
      r.length = (r.value.length : ℤ)) := by
  constructor
  · exact fun tag value => ⟨rfl, rfl⟩
  · intro s rest r h
    unfold readRecord at h
    cases h1 : readInt32 s with
    | error e => rw [h1] at h; simp at h
    | ok p =>
      obtain ⟨tg, s1⟩ := p
      rw [h1] at h
      dsimp only at h
      cases h2 : readInt32 s1 with
      | error e => rw [h2] at h; simp at h
      | ok q =>
        obtain ⟨ln, s2⟩ := q
        rw [h2] at h
        dsimp only at h
        split_ifs at h with hneg hz hempty hshort <;> simp at h
        · obtain ⟨hrec, -⟩ := h
          subst hrec
          simp only [List.length_nil, Nat.cast_zero]
          omega
        · obtain ⟨hrec, -⟩ := h
          subst hrec
          simp only [List.length_take]
          omega

/-- Witness for C8: the constructor invariant at one input, and the
decode invariant at one decoded stream. -/
theorem c8_witness :
    (newTLV 3 [7, 7]).length = ((newTLV 3 [7, 7]).value.length : ℤ) ∧
      ({ tag := 9, length := 1, value := [4] } : Record).length =
        (({ tag := 9, length := 1, value := [4] } : Record).value.length : ℤ) :=
  ⟨(c8_length_invariant.1 3 [7, 7]).1,
   c8_length_invariant.2 [9, 0, 0, 0, 1, 0, 0, 0, 4] [] ⟨9, 1, [4]⟩ (by decide)⟩

/-- C9: on a stream whose 4-byte length field decodes to the negative
value -1, `readRecord` reaches `make([]byte, -1)` and panics instead of
returning a record or an error. -/
theorem c9_negative_length_panics :
    readRecord [0, 0, 0, 0, 255, 255, 255, 255] = DecodeResult.panicked := by
  decide

/-- C10: a tag outside the signed 32-bit range is written truncated to
its low 32 bits, so decoding the encoding yields the tag reduced into
the 32-bit range — a different tag, breaking the round-trip. -/
theorem c10_tag_truncation (tag : ℤ) (value : List ℕ)
    (hv : (value.length : ℤ) < 2147483648)
    (hout : tag < -2147483648 ∨ 2147483648 ≤ tag) :
    readRecord (writeRecord (newTLV tag value)).1 =
      DecodeResult.ok
        { tag := toInt32 tag, length := (value.length : ℤ), value := value } [] ∧
      toInt32 tag ≠ tag := by
  constructor
  · have hw : (writeRecord (newTLV tag value)).1 =
        encodeInt32LE tag ++ (encodeInt32LE ((value.length : ℕ) : ℤ) ++ (value ++ [])) := by
      simp [writeRecord, newTLV]
    rw [hw, readRecord_encode tag _ value [] rfl hv]
  · have := toInt32_range tag
    omega

/-- C6: `Get` fails with `ErrTagNotFound` when no record carries the
tag, and returns the record at the earliest matching position
otherwise. -/
theorem c6_get_first_match (l : TLVList) (t : ℤ) :
    ((∀ r ∈ l, r.tag ≠ t) → TLVList.Get l t = Except.error GoErr.tagNotFound) ∧
    (∀ i : ℕ, ∀ hi : i < l.length, (l.get ⟨i, hi⟩).tag = t →
      (∀ j : ℕ, ∀ hj : j < i, (l.get ⟨j, lt_trans hj hi⟩).tag ≠ t) →
      TLVList.Get l t = Except.ok (l.get ⟨i, hi⟩)) := by
  induction l with
  | nil =>
    refine ⟨fun _ => rfl, fun i hi => absurd hi (by simp)⟩
  | cons r rest ih =>
    constructor
    · intro hall
      have hr : r.tag ≠ t := hall r (by simp)
      simp only [TLVList.Get, hr, if_false]
      exact ih.1 fun x hx => hall x (by simp [hx])
    · intro i hi hmatch hbefore
      cases i with
      | zero =>
        simp only [List.get] at hmatch
        simp [TLVList.Get, hmatch]
      | succ n =>
        have hr : r.tag ≠ t := by
          have h0 := hbefore 0 (Nat.succ_pos n)
          simpa using h0
        simp only [TLVList.Get, hr, if_false, List.get]
        exact ih.2 n (Nat.lt_of_succ_lt_succ hi) (by simpa using hmatch)
          (fun j hj => by
            have hjj := hbefore (j + 1) (Nat.succ_lt_succ hj)
            simpa using hjj)

/-- Witness for C6: with tags 1, 2, 1 in that order, `Get 1` returns the
record at index 0. -/
theorem c6_get_first_match_witness :
    TLVList.Get [⟨1, 1, [10]⟩, ⟨2, 0, []⟩, ⟨1, 1, [20]⟩] 1 =
      Except.ok ⟨1, 1, [10]⟩ :=
  (c6_get_first_match [⟨1, 1, [10]⟩, ⟨2, 0, []⟩, ⟨1, 1, [20]⟩] 1).2 0
    (by norm_num) (by decide) (fun j hj => absurd hj (Nat.not_lt_zero j))

/-- The inner pass finds no record exactly when no record carries the
tag. -/
theorem removeOnce_none_iff {tag : ℤ} {l : TLVList} :
    removeOnce tag l = none ↔ ∀ r ∈ l, r.tag ≠ tag := by
  induction l with
  | nil => simp [removeOnce]
  | cons r rest ih =>
    by_cases hr : r.tag = tag <;> simp [removeOnce, hr, ih]

/-- A successful inner pass drops one matching record and keeps every
non-matching record, in order. -/
theorem removeOnce_some_filter {tag : ℤ} : ∀ {l l' : TLVList},
    removeOnce tag l = some l' →
    l'.filter (fun r => !(r.tag == tag)) = l.filter (fun r => !(r.tag == tag)) ∧
      (l'.filter (fun r => r.tag == tag)).length + 1 =
        (l.filter (fun r => r.tag == tag)).length := by
  intro l
  induction l with
  | nil => intro l' h; simp [removeOnce] at h
  | cons r rest ih =>
    intro l' h
    by_cases hr : r.tag = tag
    · simp only [removeOnce, hr, if_true] at h
      cases h
      simp [List.filter_cons, hr]
    · simp only [removeOnce, hr, if_false, Option.map_eq_some'] at h
      obtain ⟨m, hm, hl'⟩ := h
      subst hl'
      obtain ⟨e1, e2⟩ := ih hm
      simp [List.filter_cons, hr, e1, e2]

/-- C7: `Remove` returns the survivors — exactly the records whose tag
does not match, in their original relative order — together with the
exact count of matching records removed (0, with the list unchanged,
when nothing matches). -/
theorem c7_remove_by_tag (l : TLVList) (t : ℤ) :
    TLVList.Remove l t =
      (l.filter (fun r => !(r.tag == t)),
       (l.filter (fun r => r.tag == t)).length) := by
  generalize hn : l.length = n
  induction n using Nat.strong_induction_on generalizing l with
  | _ n ih =>
    cases h : removeOnce t l with
    | none =>
      rw [Remove_none h]
      have hall := removeOnce_none_iff.mp h
      have h1 : l.filter (fun r => !(r.tag == t)) = l :=
        List.filter_eq_self.mpr fun a ha => by simpa using hall a ha
      have h2 : l.filter (fun r => (r.tag == t)) = [] :=
        List.filter_eq_nil_iff.mpr fun a ha => by simpa using hall a ha
      rw [h1, h2]
      rfl
    | some l' =>
      rw [Remove_some h]
      have hlen := removeOnce_length h
      subst hn
      rw [ih l'.length (by omega) l' rfl]
      obtain ⟨e1, e2⟩ := removeOnce_some_filter h
      rw [e1, ← e2]

/-- Witness for C10 at tag `2^31`, which decodes back as `-2^31`. -/
theorem c10_tag_truncation_witness :
    readRecord (writeRecord (newTLV 2147483648 [])).1 =
      DecodeResult.ok
        { tag := toInt32 2147483648, length := 0, value := [] } [] ∧
      toInt32 2147483648 ≠ 2147483648 := by
  simpa using c10_tag_truncation 2147483648 [] (by norm_num) (Or.inr (by norm_num))

/-- Writing a list of well-formed records produces no error, and joining
any tail to the output stream, reading decodes exactly the list back and
continues into the tail. -/
theorem Read_Write_append (l : TLVList) (hl : ∀ r ∈ l, WfRec r) (t : List ℕ) :
    Read ((TLVList.Write l).1 ++ t) =
      (match Read t with
       | .ok recs => .ok (l ++ recs)
       | .err recs e => .err (l ++ recs) e
       | .panicked => .panicked) := by
  induction l with
  | nil =>
    simp only [TLVList.Write, List.nil_append]
    cases Read t <;> simp
  | cons r rest ih =>
    obtain ⟨ht1, ht2, hlen, hsm⟩ := hl r (by simp)
    have hw : writeRecord r =
        (encodeInt32LE r.tag ++ encodeInt32LE r.length ++ r.value, none) := by
      simp [writeRecord, hlen]
    have hws : (TLVList.Write (r :: rest)).1 =
        (encodeInt32LE r.tag ++ encodeInt32LE r.length ++ r.value) ++
          (TLVList.Write rest).1 := by
      simp [TLVList.Write, hw]
    rw [hws]
    have hassoc :
        ((encodeInt32LE r.tag ++ encodeInt32LE r.length ++ r.value) ++
            (TLVList.Write rest).1) ++ t =
          encodeInt32LE r.tag ++
            (encodeInt32LE r.length ++ (r.value ++ ((TLVList.Write rest).1 ++ t))) := by
      simp [List.append_assoc]
    rw [hassoc]
    have hstep : readRecord
        (encodeInt32LE r.tag ++
          (encodeInt32LE r.length ++ (r.value ++ ((TLVList.Write rest).1 ++ t)))) =
        DecodeResult.ok r ((TLVList.Write rest).1 ++ t) := by
      rw [readRecord_encode r.tag r.length r.value _ hlen.symm (by omega),
        toInt32_of_range ht1 ht2]
    rw [Read_ok hstep, ih (fun x hx => hl x (by simp [hx]))]
    cases Read t <;> simp

/-- C2: writing a list of constructor-built records (tags in the 32-bit
range) and reading the stream back returns exactly the same records in
the same order. -/
theorem c2_list_roundtrip (l : TLVList) (hl : ∀ r ∈ l, WfRec r) :
    Read (TLVList.Write l).1 = ReadAllResult.ok l := by
  have h := Read_Write_append l hl []
  rw [List.append_nil] at h
  rw [h, @Read_eof [] (by decide)]
  simp

/-- Witness for C2 on a two-record list. -/
theorem c2_list_roundtrip_witness :
    Read (TLVList.Write [newTLV 1 [2, 3], newTLV (-4) []]).1 =
      ReadAllResult.ok [newTLV 1 [2, 3], newTLV (-4) []] := by
  refine c2_list_roundtrip [newTLV 1 [2, 3], newTLV (-4) []] ?_
  intro r hr
  simp only [List.mem_cons, List.not_mem_nil, or_false] at hr
  rcases hr with h | h <;> subst h <;>
    exact ⟨by decide, by decide, by decide, by decide⟩

/-- C3 counterexample: a stream that is exactly one complete 4-byte tag
with nothing after it — end-of-stream after a complete tag field, not at
a record boundary — is still treated by `Read` as clean termination: it
returns the empty list with no error. -/
theorem c3_counterexample : Read [1, 0, 0, 0] = ReadAllResult.ok [] := by
  rw [Read_eof (by decide)]

/-- `readRecord` fails with `io.EOF` exactly on an empty stream, a
stream of exactly one complete 4-byte tag, or a stream of exactly one
complete 8-byte header whose length field is positive. -/
theorem readRecord_eof_iff (s : List ℕ) :
    readRecord s = DecodeResult.err GoErr.eof ↔
      (s = [] ∨ s.length = 4 ∨
        (s.length = 8 ∧ ∃ L, headerLen s = some L ∧ 0 < L)) := by
  match s with
  | [] => simp [readRecord, readInt32]
  | [a] => simp [readRecord, readInt32, headerLen]
  | [a, b] => simp [readRecord, readInt32, headerLen]
  | [a, b, c] => simp [readRecord, readInt32, headerLen]
  | [a, b, c, d] => simp [readRecord, readInt32, headerLen]
  | [a, b, c, d, e] => simp [readRecord, readInt32, headerLen]
  | [a, b, c, d, e, f] => simp [readRecord, readInt32, headerLen]
  | [a, b, c, d, e, f, g] => simp [readRecord, readInt32, headerLen]
  | a :: b :: c :: d :: e :: f :: g :: h :: s2 =>
    simp only [readRecord, readInt32, headerLen, List.length_cons,
      Option.some.injEq]
    split_ifs with hL hL0 hs2 hshort <;> simp_all <;> omega

/-- C3 amended: `Read` terminates cleanly (returns a list with no error)
precisely when its last `readRecord` call hit end-of-stream with zero
bytes available, which happens at a record boundary but also right after
a complete 4-byte tag, and right after a complete 8-byte header whose
positive length field promised value bytes; any other truncation
surfaces an error. -/
theorem c3_amended_clean_termination (s : List ℕ) :
    (∃ recs, Read s = ReadAllResult.ok recs) ↔
      (leftover s = [] ∨ (leftover s).length = 4 ∨
        ((leftover s).length = 8 ∧
          ∃ L, headerLen (leftover s) = some L ∧ 0 < L)) := by
  generalize hn : s.length = n
  induction n using Nat.strong_induction_on generalizing s with
  | _ n ih =>
    cases hrr : readRecord s with
    | ok r rest =>
      rw [Read_ok hrr, leftover_ok hrr]
      have hlt := readRecord_ok_rest_length hrr
      have hrec := ih rest.length (by omega) rest rfl
      rw [← hrec]
      cases hR : Read rest <;> simp [hR]
    | err e =>
      rw [leftover_err hrr, ← readRecord_eof_iff]
      by_cases he : e = GoErr.eof
      · subst he
        rw [Read_eof hrr]
        simp [hrr]
      · rw [Read_err hrr he]
        simp [hrr, he]
    | panicked =>
      rw [leftover_panicked hrr, ← readRecord_eof_iff, Read_panicked hrr]
      simp [hrr]

/-- C4 counterexample: one well-formed empty-value record followed by
three stray bytes. `Read` surfaces `io.ErrUnexpectedEOF`, but the
returned list still holds the record decoded before the failure — the
partially built list is handed to the caller, not discarded. -/
theorem c4_counterexample :
    Read [5, 0, 0, 0, 0, 0, 0, 0, 1, 2, 3] =
      ReadAllResult.err [{ tag := 5, length := 0, value := [] }]
        GoErr.unexpectedEOF := by
  rw [@Read_ok [5, 0, 0, 0, 0, 0, 0, 0, 1, 2, 3] [1, 2, 3] ⟨5, 0, []⟩ (by decide),
    @Read_err [1, 2, 3] GoErr.unexpectedEOF (by decide) (by decide)]

/-- C4 amended: when a genuine (non-EOF-at-loop-head) failure follows
records that decoded successfully, `Read` surfaces that error together
with the partially built list: the caller receives the records decoded
before the failure alongside the error. -/
theorem c4_amended_partial_list (tag : ℤ) (value : List ℕ)
    (h1 : -2147483648 ≤ tag) (h2 : tag < 2147483648)
    (h3 : (value.length : ℤ) < 2147483648)
    (t : List ℕ) (recs : TLVList) (e : GoErr)
    (ht : Read t = ReadAllResult.err recs e) :
    Read ((writeRecord (newTLV tag value)).1 ++ t) =
      ReadAllResult.err (newTLV tag value :: recs) e := by
  have hw : (writeRecord (newTLV tag value)).1 ++ t =
      encodeInt32LE tag ++ (encodeInt32LE ((value.length : ℕ) : ℤ) ++ (value ++ t)) := by
    simp [writeRecord, newTLV, List.append_assoc]
  have hstep : readRecord ((writeRecord (newTLV tag value)).1 ++ t) =
      DecodeResult.ok (newTLV tag value) t := by
    rw [hw, readRecord_encode tag _ value t rfl h3, toInt32_of_range h1 h2]
    rfl
  rw [Read_ok hstep, ht]

/-- Witness for C4's amended claim: a record followed by three stray
bytes; the error comes back with the one decoded record. -/
theorem c4_amended_witness :
    Read ((writeRecord (newTLV 5 [])).1 ++ [1, 2, 3]) =
      ReadAllResult.err [newTLV 5 []] GoErr.unexpectedEOF :=
  c4_amended_partial_list 5 [] (by norm_num) (by norm_num) (by norm_num)
    [1, 2, 3] [] GoErr.unexpectedEOF
    (by rw [@Read_err [1, 2, 3] GoErr.unexpectedEOF (by decide) (by decide)])

end Tlv
